import Mathlib

/-!
# Shallow embedding of the degen-blackjack round engine

This file embeds the core round state machine of `src/main.rs`: cards, hands
with cached value / ace count, ace-aware hand valuation, players and banks,
the active-hand index, and the `reset` / `hit` / `stay` / end-of-round
operations.  Randomness (the `rand::random()` card draws) is modelled as an
explicit stream of rank/suit indices (`Rng`) together with a draw counter `k`
threaded through the state, exactly one index per drawn card; the stream
produces the same 13 ranks and 4 suits that the source's `Distribution`
impls produce (never the `Hidden` sentinel).  Monetary `f64` values are
modelled as rationals: every monetary operation in the source (`+= 5.0`,
`-= 5.0`, `* 2.0`) is exact in binary floating point at the values the
program manipulates.  Machine `u8` card totals are modelled as `Nat`
(no reachable total approaches 255).
-/

/-- The `CardValue` enum of the source, including the `Hidden` sentinel. -/
inductive CardValue where
  | Two | Three | Four | Five | Six | Seven | Eight | Nine | Ten
  | Jack | Queen | King | Ace | Hidden
deriving DecidableEq

/-- The `CardSuit` enum of the source. -/
inductive CardSuit where
  | Heart | Spade | Club | Diamond | Hidden
deriving DecidableEq

/-- A playing card: rank and suit (`struct Card`). -/
structure Card where
  value : CardValue
  suit : CardSuit
deriving DecidableEq

/-- Numeric value of a rank, as in `Card::numerical_value`. -/
def cardValueNum : CardValue → Nat
  | .Two => 2 | .Three => 3 | .Four => 4 | .Five => 5 | .Six => 6
  | .Seven => 7 | .Eight => 8 | .Nine => 9 | .Ten => 10
  | .Jack => 10 | .Queen => 10 | .King => 10 | .Ace => 11
  | .Hidden => 0

/-- `Card::numerical_value`: Two..Ten at face value, faces 10, Ace 11, Hidden 0. -/
def Card.numerical_value (c : Card) : Nat := cardValueNum c.value

/-- `Card::new_hidden`: the face-down card. -/
def Card.new_hidden : Card := ⟨CardValue.Hidden, CardSuit.Hidden⟩

/-- The rank sampled for a random index, mirroring the
`Distribution<CardValue>` impl (`rng.random_range(0..=12)`); index 12 is the
Ace and indices ≥ 13 cannot occur for a `Fin 13`. -/
def sampleValue (i : Fin 13) : CardValue :=
  match i.val with
  | 0 => .Two | 1 => .Three | 2 => .Four | 3 => .Five | 4 => .Six
  | 5 => .Seven | 6 => .Eight | 7 => .Nine | 8 => .Ten | 9 => .Jack
  | 10 => .Queen | 11 => .King | _ => .Ace

/-- The suit sampled for a random index, mirroring the
`Distribution<CardSuit>` impl (`rng.random_range(0..=3)`). -/
def sampleSuit (j : Fin 4) : CardSuit :=
  match j.val with
  | 0 => .Heart | 1 => .Spade | 2 => .Club | _ => .Diamond

/-- The stream of random rank/suit indices backing `rand::random()`;
draw `k` yields rank index `vals k` and suit index `suits k`. -/
structure Rng where
  vals : Nat → Fin 13
  suits : Nat → Fin 4

/-- The card produced by draw number `k` (`Card::new` / `Card::flip_card`). -/
def Rng.drawAt (r : Rng) (k : Nat) : Card :=
  ⟨sampleValue (r.vals k), sampleSuit (r.suits k)⟩

/-- The `Outcome` enum of the source, payloads as displayed totals. -/
inductive Outcome where
  | NotFinished
  | Stand
  | DealerWins (d p : Nat)
  | DealerBusts (d p : Nat)
  | PlayerWins (d p : Nat)
  | PlayerBusts (d p : Nat)
  | DealerBlackjack (p : Nat)
  | PlayerBlackjack (d : Nat)
  | Push (t : Nat)
deriving DecidableEq

/-- `struct Hand`: cards in draw order, cached ace count, cached raw value,
wager, and settlement outcome. -/
structure Hand where
  contains : List Card
  number_of_aces : Nat
  value : Nat
  bet : ℚ
  outcome : Outcome
deriving DecidableEq

/-- Raw sum of card values over a card list (`Hand::get_value`'s loop). -/
def sumValues : List Card → Nat
  | [] => 0
  | c :: t => c.numerical_value + sumValues t

/-- Number of aces in a card list (`Hand::get_number_of_aces`'s loop). -/
def countAces : List Card → Nat
  | [] => 0
  | c :: t => (if c.value = CardValue.Ace then 1 else 0) + countAces t

/-- `Hand::new`. -/
def Hand.new : Hand :=
  { contains := [], number_of_aces := 0, value := 0, bet := 0,
    outcome := Outcome.NotFinished }

/-- `Hand::get_value`. -/
def Hand.get_value (h : Hand) : Nat := sumValues h.contains

/-- `Hand::get_number_of_aces`. -/
def Hand.get_number_of_aces (h : Hand) : Nat := countAces h.contains

/-- `Hand::add_card`: append the drawn card, then recompute both caches. -/
def Hand.add_card (h : Hand) (c : Card) : Hand :=
  let cs := h.contains ++ [c]
  { h with contains := cs, value := sumValues cs,
           number_of_aces := countAces cs }

/-- `Hand::add_hidden_card`: append the hidden card, caches untouched. -/
def Hand.add_hidden_card (h : Hand) : Hand :=
  { h with contains := h.contains ++ [Card.new_hidden] }

/-- The ace-reduction loop of `Hand::get_real_value`:
`while value > 21 && aces > 0 { aces -= 1; value -= 10 }`, returning the
final value and remaining ace count. -/
def reduceAces : Nat → Nat → Nat × Nat
  | v, 0 => (v, 0)
  | v, a + 1 => if 21 < v then reduceAces (v - 10) a else (v, a + 1)

/-- `Hand::get_real_value`: reduce the cached raw value by the cached ace
count; soft iff an ace is still counted as 11 afterwards. -/
def Hand.get_real_value (h : Hand) : Nat × Bool :=
  let r := reduceAces h.value h.number_of_aces
  (r.1, decide (0 < r.2))

/-- `struct Player`. -/
structure Player where
  hands : List Hand
  name : String
  bank : ℚ
deriving DecidableEq

/-- `Player::new`. -/
def Player.new : Player := { hands := [], name := "", bank := 0 }

/-- `struct App`: the round state machine, plus the modelled random stream
and draw counter. -/
structure App where
  exit : Bool
  players : List Player
  dealer_hand : Hand
  active_hand_index : Nat × Nat
  rng : Rng
  k : Nat

/-- In-place update of a list element, as Rust's `xs[i] = ...` /
`&mut` access; out-of-range indices leave the list unchanged (the source
would panic there; no claim depends on out-of-range behaviour). -/
def updateNth {α : Type} : List α → Nat → (α → α) → List α
  | [], _, _ => []
  | x :: t, 0, f => f x :: t
  | x :: t, n + 1, f => x :: updateNth t n f

/-- The source's player-setup routine (`fn initialize` in `impl App`):
push a fresh player, then set name and bank of player 0. -/
def App.setup (a : App) : App :=
  let ps := a.players ++ [Player.new]
  let ps' := updateNth ps 0 (fun p => { p with name := "Nick", bank := 100 })
  { a with players := ps' }

/-- The ante loop of `App::reset`: for each hand, `bet += 5.0` and
`bank -= 5.0`. -/
def anteHands : List Hand → ℚ → List Hand × ℚ
  | [], b => ([], b)
  | h :: t, b =>
    let r := anteHands t (b - 5)
    ({ h with bet := h.bet + 5 } :: r.1, r.2)

/-- Ante applied to one player. -/
def antePlayer (p : Player) : Player :=
  let r := anteHands p.hands p.bank
  { p with hands := r.1, bank := r.2 }

/-- One dealing pass over a list of hands (`hand.add_card()` for each),
threading the draw counter. -/
def dealHands (r : Rng) : Nat → List Hand → List Hand × Nat
  | k, [] => ([], k)
  | k, h :: t =>
    let res := dealHands r (k + 1) t
    (h.add_card (r.drawAt k) :: res.1, res.2)

/-- One dealing pass over all players (`for player { for hand { add_card } }`). -/
def dealPlayers (r : Rng) : Nat → List Player → List Player × Nat
  | k, [] => ([], k)
  | k, p :: t =>
    let hs := dealHands r k p.hands
    let res := dealPlayers r hs.2 t
    ({ p with hands := hs.1 } :: res.1, res.2)

/-- `App::reset`: index to (0,0); clear hands; two fresh hands per player;
ante each hand; first visible card to each player hand; fresh dealer hand
with a hidden hole card; second visible card to each player hand; one
visible dealer card. -/
def App.reset (a : App) : App :=
  let ps2 := (a.players.map (fun p => { p with hands := ([] : List Hand) })).map
    (fun p => { p with hands := [Hand.new, Hand.new] })
  let ps3 := ps2.map antePlayer
  let d1 := dealPlayers a.rng a.k ps3
  let dealer0 := Hand.new.add_hidden_card
  let d2 := dealPlayers a.rng d1.2 d1.1
  let dealer1 := dealer0.add_card (a.rng.drawAt d2.2)
  { a with active_hand_index := (0, 0), players := d2.1,
           dealer_hand := dealer1, k := d2.2 + 1 }

/-- The hand at a (player, hand) position, if in range. -/
def App.lookupHand (a : App) (pi hi : Nat) : Option Hand :=
  (a.players[pi]?).bind (fun p => p.hands[hi]?)

/-- The mutation `hit` performs on the players structure: the active hand
receives one drawn card. -/
def hitPlayers (a : App) : List Player :=
  updateNth a.players a.active_hand_index.1
    (fun p => { p with hands := (updateNth p.hands a.active_hand_index.2
      (fun h0 => h0.add_card (a.rng.drawAt a.k))) })

/-- `App::hit`: draw one card into the active hand if its outcome is still
`NotFinished` and its real value is below 21; otherwise do nothing. -/
def App.hit (a : App) : App :=
  match a.lookupHand a.active_hand_index.1 a.active_hand_index.2 with
  | none => a
  | some h =>
    if h.outcome = Outcome.NotFinished ∧ (Hand.get_real_value h).1 < 21 then
      { a with k := a.k + 1, players := hitPlayers a }
    else a

/-- `App::next_hand`: move to the next hand of the current player if one
exists, else increment the player index (keeping the hand index) if a next
player exists, else keep the index.  Rust's `usize` subtraction `len - 1`
is `Nat` truncated subtraction here. -/
def App.next_hand (a : App) : App :=
  let pi := a.active_hand_index.1
  let hi := a.active_hand_index.2
  let hlen := ((a.players[pi]?).map (fun p => p.hands.length)).getD 0
  if hlen - 1 > hi then { a with active_hand_index := (pi, hi + 1) }
  else if a.players.length - 1 > pi then { a with active_hand_index := (pi + 1, hi) }
  else { a with active_hand_index := (pi, hi) }

/-- The hole-card reveal at the start of `App::end`: if the dealer's first
card is hidden, replace it with a fresh draw (`flip_card`) and recompute the
cached value — the cached ace count is *not* recomputed by the source. -/
def App.flipPhase (a : App) : App :=
  match a.dealer_hand.contains with
  | [] => a
  | c :: rest =>
    if c.value = CardValue.Hidden then
      let c' := a.rng.drawAt a.k
      let d1 := { a.dealer_hand with contains := c' :: rest }
      { a with dealer_hand := { d1 with value := sumValues d1.contains },
               k := a.k + 1 }
    else a

/-- The dealer drawing loop of `App::end`
(`while get_real_value().0 < 17 { add_card() }`), unrolled on fuel; the
theorem `dealerPhase_ge_17` shows 40 iterations always reach the loop's
exit condition, so `dealerPhase` below is the loop's exact fixed point. -/
def dealerSteps : Nat → App → App
  | 0, a => a
  | n + 1, a =>
    if (a.dealer_hand.get_real_value).1 < 17 then
      dealerSteps n { a with dealer_hand := a.dealer_hand.add_card (a.rng.drawAt a.k),
                             k := a.k + 1 }
    else a

/-- The dealer drawing loop of `App::end`. -/
def App.dealerPhase (a : App) : App := dealerSteps 40 a

/-- The per-hand settlement of `App::end`'s final loop: the ordered
`if / else if` chain over (player real total, dealer real total), mutating
the hand's outcome and bet and the owning player's bank. -/
def settleHand (d : Nat) (bank : ℚ) (h : Hand) : Hand × ℚ :=
  let p := (h.get_real_value).1
  if 21 < p then ({ h with outcome := .PlayerBusts d p, bet := 0 }, bank)
  else if 21 < d then ({ h with outcome := .DealerBusts d p, bet := 0 }, bank + h.bet * 2)
  else if p < d then ({ h with outcome := .DealerWins d p, bet := 0 }, bank)
  else if d < p then ({ h with outcome := .PlayerWins d p, bet := 0 }, bank + h.bet * 2)
  else if d = p then ({ h with outcome := .Push d, bet := 0 }, bank + h.bet)
  else (h, bank)

/-- Settlement folded over a player's hands in order, threading the bank. -/
def settleHands (d : Nat) : ℚ → List Hand → List Hand × ℚ
  | bank, [] => ([], bank)
  | bank, h :: t =>
    let r1 := settleHand d bank h
    let r2 := settleHands d r1.2 t
    (r1.1 :: r2.1, r2.2)

/-- Settlement of one player. -/
def settlePlayer (d : Nat) (p : Player) : Player :=
  let r := settleHands d p.bank p.hands
  { p with hands := r.1, bank := r.2 }

/-- `App::end` (named `endRound` since `end` is reserved in Lean): reveal
the hole card if hidden, run the dealer drawing loop, then settle every
hand of every player against the dealer's real total. -/
def App.endRound (a : App) : App :=
  let a2 := a.flipPhase.dealerPhase
  let d := (a2.dealer_hand.get_real_value).1
  { a2 with players := a2.players.map (settlePlayer d) }

/-- The `finished` scan of `App::stay`: true iff no hand of any player is
still `NotFinished`. -/
def allSettled (ps : List Player) : Bool :=
  ps.all (fun p => p.hands.all (fun h => decide (h.outcome ≠ Outcome.NotFinished)))

/-- The per-hand mutation of `App::stay`: a `NotFinished` hand becomes
`Stand`, any other hand is untouched. -/
def standUpd (h : Hand) : Hand :=
  if h.outcome = Outcome.NotFinished then { h with outcome := Outcome.Stand } else h

/-- The mutation `stay` performs on the players structure before advancing. -/
def stayPlayers (a : App) : List Player :=
  updateNth a.players a.active_hand_index.1
    (fun p => { p with hands := updateNth p.hands a.active_hand_index.2 standUpd })

/-- `App::stay`: set the active hand to `Stand` if it was `NotFinished`,
advance the active index, and if no hand is `NotFinished` any more, run
end-of-round settlement. -/
def App.stay (a : App) : App :=
  let a1 := { a with players := stayPlayers a }
  let a2 := a1.next_hand
  if allSettled a2.players then a2.endRound else a2

/-- The user commands routed to the state machine by `handle_key_event`. -/
inductive Cmd where
  | reset | hit | stay
deriving DecidableEq

/-- Apply one command. -/
def stepCmd : Cmd → App → App
  | .reset, a => a.reset
  | .hit, a => a.hit
  | .stay, a => a.stay

/-- Apply a sequence of commands. -/
def runCmds (a : App) : List Cmd → App
  | [] => a
  | c :: t => runCmds (stepCmd c a) t

/-- The app as `main` constructs it before `run` calls `initialize`. -/
def mkApp (r : Rng) : App :=
  { exit := false, players := [], dealer_hand := Hand.new,
    active_hand_index := (0, 0), rng := r, k := 0 }

/-- The app at the start of `App::run`, after `initialize`. -/
def initApp (r : Rng) : App := (mkApp r).setup

/-! ## Claim-side (specification) definitions and concrete instances -/

/-- A hand built by drawing the given cards in order into a fresh hand. -/
def handOfCards (cs : List Card) : Hand := cs.foldl Hand.add_card Hand.new

/-- A concrete card of the given rank (suit irrelevant to valuation). -/
def cardV (v : CardValue) : Card := ⟨v, CardSuit.Heart⟩

/-- The rank of the dealer's first card (hole card), if any. -/
def App.holeVal (a : App) : Option CardValue :=
  a.dealer_hand.contains.head?.map Card.value

/-- Whether an outcome is one of the two natural-blackjack variants. -/
def Outcome.isBJ : Outcome → Bool
  | .DealerBlackjack _ => true
  | .PlayerBlackjack _ => true
  | _ => false

/-- No hand of any player, nor the dealer hand, carries a blackjack outcome. -/
def App.noBJ (a : App) : Prop :=
  (∀ p ∈ a.players, ∀ h ∈ p.hands, h.outcome.isBJ = false)
  ∧ a.dealer_hand.outcome.isBJ = false

/-- Modelled from the claim's resolution matrix (C2), for comparison with
the source-derived `settleHand`: the ordered five-case matrix with its
stated bank deltas, zeroing the bet in every case. -/
def resolveClaim (d : Nat) (bank : ℚ) (h : Hand) : Hand × ℚ :=
  let p := (h.get_real_value).1
  if 21 < p then ({ h with outcome := .PlayerBusts d p, bet := 0 }, bank)
  else if 21 < d then ({ h with outcome := .DealerBusts d p, bet := 0 }, bank + 2 * h.bet)
  else if p < d then ({ h with outcome := .DealerWins d p, bet := 0 }, bank)
  else if d < p then ({ h with outcome := .PlayerWins d p, bet := 0 }, bank + 2 * h.bet)
  else ({ h with outcome := .Push d, bet := 0 }, bank + h.bet)

/-- The claim-side matrix folded over a player's hands. -/
def claimSettleHands (d : Nat) : ℚ → List Hand → List Hand × ℚ
  | bank, [] => ([], bank)
  | bank, h :: t =>
    let r1 := resolveClaim d bank h
    let r2 := claimSettleHands d r1.2 t
    (r1.1 :: r2.1, r2.2)

/-- The claim-side matrix applied to one player. -/
def claimSettlePlayer (d : Nat) (p : Player) : Player :=
  let r := claimSettleHands d p.bank p.hands
  { p with hands := r.1, bank := r.2 }

/-- The outcome the settlement matrix assigns to (dealer total, player total). -/
def settleOutcome (d p : Nat) : Outcome :=
  if 21 < p then .PlayerBusts d p
  else if 21 < d then .DealerBusts d p
  else if p < d then .DealerWins d p
  else if d < p then .PlayerWins d p
  else .Push d

/-- The index the amended advancement rule (C3) prescribes: next hand of the
current player if one exists, else next player keeping the same hand index
if one exists, else unchanged. -/
def nextIdxSpec (ps : List Player) (idx : Nat × Nat) : Nat × Nat :=
  let hlen := ((ps[idx.1]?).map (fun p => p.hands.length)).getD 0
  if idx.2 + 1 < hlen then (idx.1, idx.2 + 1)
  else if idx.1 + 1 < ps.length then (idx.1 + 1, idx.2)
  else (idx.1, idx.2)

/-- The active index is a valid position into the players×hands structure. -/
def App.validIdx (a : App) : Prop :=
  ∃ p, a.players[a.active_hand_index.1]? = some p
    ∧ a.active_hand_index.2 < p.hands.length

/-- The reachability invariant behind C8: at least one player, every player
holding exactly two hands, and the active index inside the structure. -/
def App.Inv (a : App) : Prop :=
  0 < a.players.length
  ∧ (∀ p ∈ a.players, p.hands.length = 2)
  ∧ a.active_hand_index.1 < a.players.length
  ∧ a.active_hand_index.2 < 2

/-- A deterministic stream: every draw is a Two of Hearts. -/
def rng0 : Rng := ⟨fun _ => 0, fun _ => 0⟩

/-- A stream making `reset`'s dealer up-card a Ten and the hole-card flip an
Ace (draws 0–3 are the player cards, draw 4 the dealer up-card, draw 5 the
flip), everything else a Two. -/
def rngC5 : Rng :=
  ⟨fun k => if k = 4 then 8 else if k = 5 then 12 else 0, fun _ => 0⟩

/-- A full round played to completion on the all-Twos stream:
reset, stand on hand (0,0), stand on hand (0,1) (which settles). -/
def played0 : App := runCmds (initApp rng0) [Cmd.reset, Cmd.stay, Cmd.stay]

/-- A full round on `rngC5`: the hole card flips to an Ace and the dealer
stands immediately on [Ace, Ten] = 21 with its stale ace cache. -/
def played5 : App := runCmds (initApp rngC5) [Cmd.reset, Cmd.stay, Cmd.stay]

/-- A two-player, two-hands-each table with every hand still unplayed. -/
def c3Player : Player := { hands := [Hand.new, Hand.new], name := "P", bank := 100 }

/-- The two-player table with the active index on player 0's second hand. -/
def c3App : App :=
  { exit := false, players := [c3Player, c3Player], dealer_hand := Hand.new,
    active_hand_index := (0, 1), rng := rng0, k := 0 }

/-- The same table with the active index on player 0's first hand. -/
def c3App00 : App := { c3App with active_hand_index := (0, 0) }

/-- A bare table whose dealer holds the given hand (for dealer-policy tests). -/
def dealerApp (h : Hand) : App :=
  { exit := false, players := [], dealer_hand := h,
    active_hand_index := (0, 0), rng := rng0, k := 0 }

/-- A hand that has already stood, belonging to a one-hand player. -/
def standHand0 : Hand := { Hand.new with outcome := Outcome.Stand }

/-- An app whose active hand has outcome `Stand` (for the hit frame witness). -/
def hitWitnessApp : App :=
  { exit := false, players := [{ hands := [standHand0], name := "x", bank := 0 }],
    dealer_hand := Hand.new, active_hand_index := (0, 0), rng := rng0, k := 0 }

/-- The hand each player holds after `reset`'s ante loop: fresh, wager 5. -/
def handNew5 : Hand := { Hand.new with bet := 5 }

/-! ## Helper lemmas: list surgery -/

lemma updateNth_length {α : Type} (l : List α) (n : Nat) (f : α → α) :
    (updateNth l n f).length = l.length := by
  induction l generalizing n with
  | nil => rfl
  | cons x t ih =>
    cases n with
    | zero => rfl
    | succ m => simpa [updateNth] using ih m

lemma getElem?_updateNth_eq {α : Type} (l : List α) (n : Nat) (f : α → α) :
    (updateNth l n f)[n]? = (l[n]?).map f := by
  induction l generalizing n with
  | nil => simp [updateNth]
  | cons x t ih =>
    cases n with
    | zero => simp [updateNth]
    | succ m => simpa [updateNth] using ih m

lemma getElem?_updateNth_ne {α : Type} (l : List α) (n m : Nat) (f : α → α)
    (h : m ≠ n) : (updateNth l n f)[m]? = l[m]? := by
  induction l generalizing n m with
  | nil => simp [updateNth]
  | cons x t ih =>
    cases n with
    | zero =>
      cases m with
      | zero => exact absurd rfl h
      | succ j => simp [updateNth]
    | succ i =>
      cases m with
      | zero => simp [updateNth]
      | succ j => simpa [updateNth] using ih i j (by omega)

lemma updateNth_id {α : Type} (l : List α) (n : Nat) (f : α → α)
    (h : ∀ x ∈ l, f x = x) : updateNth l n f = l := by
  induction l generalizing n with
  | nil => rfl
  | cons x t ih =>
    cases n with
    | zero => simp [updateNth, h x (by simp)]
    | succ m =>
      simp only [updateNth, List.cons.injEq, true_and]
      exact ih m (fun y hy => h y (by simp [hy]))

lemma mem_updateNth {α : Type} {l : List α} {n : Nat} {f : α → α} {x : α}
    (h : x ∈ updateNth l n f) : x ∈ l ∨ ∃ y ∈ l, x = f y := by
  induction l generalizing n with
  | nil => simp [updateNth] at h
  | cons z t ih =>
    cases n with
    | zero =>
      rcases (List.mem_cons.mp h) with h1 | h1
      · exact Or.inr ⟨z, by simp, h1⟩
      · exact Or.inl (List.mem_cons.mpr (Or.inr h1))
    | succ m =>
      rcases (List.mem_cons.mp h) with h1 | h1
      · exact Or.inl (by simp [h1])
      · rcases ih h1 with h2 | ⟨y, hy, hxy⟩
        · exact Or.inl (List.mem_cons.mpr (Or.inr h2))
        · exact Or.inr ⟨y, by simp [hy], hxy⟩

lemma map_congr_mem {α β : Type} {l : List α} {f g : α → β}
    (h : ∀ x ∈ l, f x = g x) : l.map f = l.map g := by
  induction l with
  | nil => rfl
  | cons x t ih =>
    simp only [List.map_cons, h x (by simp)]
    exact congrArg _ (ih (fun y hy => h y (by simp [hy])))

lemma map_id_mem {α : Type} {l : List α} {f : α → α}
    (h : ∀ x ∈ l, f x = x) : l.map f = l := by
  calc l.map f = l.map id := map_congr_mem h
  _ = l := List.map_id l

/-! ## Helper lemmas: hands and valuation -/

lemma sumValues_append (l : List Card) (c : Card) :
    sumValues (l ++ [c]) = sumValues l + c.numerical_value := by
  induction l with
  | nil => simp [sumValues]
  | cons x t ih => simp [sumValues, ih]; omega

lemma countAces_append (l : List Card) (c : Card) :
    countAces (l ++ [c]) = countAces l + (if c.value = CardValue.Ace then 1 else 0) := by
  induction l with
  | nil => simp [countAces]
  | cons x t ih => simp [countAces, ih]; omega

lemma add_card_contains (h : Hand) (c : Card) :
    (h.add_card c).contains = h.contains ++ [c] := rfl

lemma add_card_value (h : Hand) (c : Card) :
    (h.add_card c).value = sumValues (h.contains ++ [c]) := rfl

lemma add_card_aces (h : Hand) (c : Card) :
    (h.add_card c).number_of_aces = countAces (h.contains ++ [c]) := rfl

lemma add_card_bet (h : Hand) (c : Card) : (h.add_card c).bet = h.bet := rfl

lemma add_card_outcome (h : Hand) (c : Card) :
    (h.add_card c).outcome = h.outcome := rfl

lemma foldl_add_card_spec (cs : List Card) :
    ∀ h : Hand, h.value = sumValues h.contains →
      h.number_of_aces = countAces h.contains →
      (cs.foldl Hand.add_card h).contains = h.contains ++ cs
      ∧ (cs.foldl Hand.add_card h).value = sumValues (h.contains ++ cs)
      ∧ (cs.foldl Hand.add_card h).number_of_aces = countAces (h.contains ++ cs)
      ∧ (cs.foldl Hand.add_card h).bet = h.bet
      ∧ (cs.foldl Hand.add_card h).outcome = h.outcome := by
  induction cs with
  | nil =>
    intro h hv ha
    exact ⟨by simp, by simp [hv], by simp [ha], by simp, by simp⟩
  | cons c t ih =>
    intro h hv ha
    have h2 := ih (h.add_card c) rfl rfl
    have e : (h.add_card c).contains = h.contains ++ [c] := rfl
    rw [List.foldl_cons]
    rw [e] at h2
    have e2 : h.contains ++ [c] ++ t = h.contains ++ c :: t := by simp
    rw [e2] at h2
    exact ⟨h2.1, h2.2.1, h2.2.2.1, h2.2.2.2.1, h2.2.2.2.2⟩

lemma handOfCards_spec (cs : List Card) :
    (handOfCards cs).contains = cs
    ∧ (handOfCards cs).value = sumValues cs
    ∧ (handOfCards cs).number_of_aces = countAces cs
    ∧ (handOfCards cs).bet = 0
    ∧ (handOfCards cs).outcome = Outcome.NotFinished := by
  obtain ⟨h1, h2, h3, h4, h5⟩ := foldl_add_card_spec cs Hand.new rfl rfl
  exact ⟨h1, h2, h3, h4, h5⟩

/-! ## Valuation bounds and dealer-loop lemmas -/

lemma reduceAces_fst_ge (a : Nat) : ∀ v : Nat, v - 10 * a ≤ (reduceAces v a).1 := by
  induction a with
  | zero => intro v; simp [reduceAces]
  | succ n ih =>
    intro v
    by_cases h : 21 < v
    · have := ih (v - 10)
      simp only [reduceAces, if_pos h]
      omega
    · simp only [reduceAces, if_neg h]
      omega

lemma sumValues_ge_aces (l : List Card) : 11 * countAces l ≤ sumValues l := by
  induction l with
  | nil => simp [sumValues, countAces]
  | cons c t ih =>
    simp only [sumValues, countAces]
    by_cases h : c.value = CardValue.Ace
    · simp only [if_pos h]
      have : c.numerical_value = 11 := by
        simp [Card.numerical_value, h, cardValueNum]
      omega
    · simp only [if_neg h]
      omega

lemma drawAt_num_ge_two (r : Rng) (k : Nat) : 2 ≤ (r.drawAt k).numerical_value := by
  have h : ∀ i : Fin 13, 2 ≤ cardValueNum (sampleValue i) := by decide
  exact h (r.vals k)

lemma drawAt_value_ne_hidden (r : Rng) (k : Nat) :
    (r.drawAt k).value ≠ CardValue.Hidden := by
  have h : ∀ i : Fin 13, sampleValue i ≠ CardValue.Hidden := by decide
  exact h (r.vals k)

lemma drawAt_ace_eleven (r : Rng) (k : Nat) :
    (r.drawAt k).value = CardValue.Ace → (r.drawAt k).numerical_value = 11 := by
  intro h
  simp [Card.numerical_value, Rng.drawAt] at h ⊢
  simp [h, cardValueNum]

lemma hardFloor_snoc (l : List Card) (r : Rng) (j : Nat) :
    sumValues l - 10 * countAces l + 1
      ≤ sumValues (l ++ [r.drawAt j]) - 10 * countAces (l ++ [r.drawAt j]) := by
  rw [sumValues_append, countAces_append]
  have hs := sumValues_ge_aces l
  have h2 := drawAt_num_ge_two r j
  by_cases h : (r.drawAt j).value = CardValue.Ace
  · have h11 := drawAt_ace_eleven r j h
    simp only [if_pos h]
    omega
  · simp only [if_neg h]
    omega

lemma real_ge_hardFloor (h : Hand)
    (hv : h.value = sumValues h.contains)
    (ha : h.number_of_aces = countAces h.contains) :
    sumValues h.contains - 10 * countAces h.contains ≤ (h.get_real_value).1 := by
  have := reduceAces_fst_ge h.number_of_aces h.value
  simp only [Hand.get_real_value]
  omega

lemma dealerSteps_zero (a : App) : dealerSteps 0 a = a := rfl

lemma dealerSteps_succ (n : Nat) (a : App) :
    dealerSteps (n + 1) a
      = if (a.dealer_hand.get_real_value).1 < 17 then
          dealerSteps n
            { a with dealer_hand := a.dealer_hand.add_card (a.rng.drawAt a.k),
                     k := a.k + 1 }
        else a := rfl

lemma dealerSteps_ge17 (n : Nat) :
    ∀ a : App, a.dealer_hand.value = sumValues a.dealer_hand.contains →
      a.dealer_hand.number_of_aces = countAces a.dealer_hand.contains →
      17 ≤ sumValues a.dealer_hand.contains - 10 * countAces a.dealer_hand.contains + n →
      17 ≤ ((dealerSteps n a).dealer_hand.get_real_value).1 := by
  induction n with
  | zero =>
    intro a hv ha hb
    have := real_ge_hardFloor a.dealer_hand hv ha
    rw [dealerSteps_zero]
    omega
  | succ m ih =>
    intro a hv ha hb
    rw [dealerSteps_succ]
    by_cases hg : (a.dealer_hand.get_real_value).1 < 17
    · rw [if_pos hg]
      set a' : App := { a with dealer_hand := a.dealer_hand.add_card (a.rng.drawAt a.k),
                               k := a.k + 1 } with ha'
      have hc : a'.dealer_hand.contains = a.dealer_hand.contains ++ [a.rng.drawAt a.k] := rfl
      have hf := hardFloor_snoc a.dealer_hand.contains a.rng a.k
      exact ih a' rfl rfl (by rw [hc]; omega)
    · rw [if_neg hg]
      omega

lemma dealerPhase_ge17 (a : App) : 17 ≤ ((a.dealerPhase).dealer_hand.get_real_value).1 := by
  show 17 ≤ ((dealerSteps 40 a).dealer_hand.get_real_value).1
  rw [show (40 : Nat) = 39 + 1 from rfl, dealerSteps_succ]
  by_cases hg : (a.dealer_hand.get_real_value).1 < 17
  · rw [if_pos hg]
    exact dealerSteps_ge17 39 _ rfl rfl (by omega)
  · rw [if_neg hg]
    omega

lemma dealerPhase_noop (a : App) (h : 17 ≤ (a.dealer_hand.get_real_value).1) :
    a.dealerPhase = a := by
  show dealerSteps 40 a = a
  rw [show (40 : Nat) = 39 + 1 from rfl, dealerSteps_succ]
  rw [if_neg (by omega : ¬ (a.dealer_hand.get_real_value).1 < 17)]

lemma dealerSteps_len_mono (n : Nat) :
    ∀ a : App, a.dealer_hand.contains.length ≤ (dealerSteps n a).dealer_hand.contains.length := by
  induction n with
  | zero => intro a; rw [dealerSteps_zero]
  | succ m ih =>
    intro a
    rw [dealerSteps_succ]
    by_cases hg : (a.dealer_hand.get_real_value).1 < 17
    · rw [if_pos hg]
      set a' : App := { a with dealer_hand := a.dealer_hand.add_card (a.rng.drawAt a.k),
                               k := a.k + 1 } with ha'
      have hc : a'.dealer_hand.contains = a.dealer_hand.contains ++ [a.rng.drawAt a.k] := rfl
      have := ih a'
      rw [hc] at this
      simp only [List.length_append, List.length_cons, List.length_nil] at this
      omega
    · rw [if_neg hg]

lemma dealerPhase_draws (a : App) (h : (a.dealer_hand.get_real_value).1 < 17) :
    a.dealer_hand.contains.length + 1 ≤ (a.dealerPhase).dealer_hand.contains.length := by
  show a.dealer_hand.contains.length + 1 ≤ (dealerSteps 40 a).dealer_hand.contains.length
  rw [show (40 : Nat) = 39 + 1 from rfl, dealerSteps_succ, if_pos h]
  set a' : App := { a with dealer_hand := a.dealer_hand.add_card (a.rng.drawAt a.k),
                           k := a.k + 1 } with ha'
  have hc : a'.dealer_hand.contains = a.dealer_hand.contains ++ [a.rng.drawAt a.k] := rfl
  have := dealerSteps_len_mono 39 a'
  rw [hc] at this
  simp only [List.length_append, List.length_cons, List.length_nil] at this
  omega

/-! ## Frame lemmas for the end-of-round phases -/

lemma flipPhase_players (a : App) : (a.flipPhase).players = a.players := by
  unfold App.flipPhase
  cases a.dealer_hand.contains with
  | nil => rfl
  | cons c rest =>
    by_cases h : c.value = CardValue.Hidden
    · simp [h]
    · simp [h]

lemma flipPhase_active (a : App) :
    (a.flipPhase).active_hand_index = a.active_hand_index := by
  unfold App.flipPhase
  cases a.dealer_hand.contains with
  | nil => rfl
  | cons c rest =>
    by_cases h : c.value = CardValue.Hidden
    · simp [h]
    · simp [h]

lemma flipPhase_dealer_outcome (a : App) :
    (a.flipPhase).dealer_hand.outcome = a.dealer_hand.outcome := by
  unfold App.flipPhase
  cases a.dealer_hand.contains with
  | nil => rfl
  | cons c rest =>
    by_cases h : c.value = CardValue.Hidden
    · simp [h]
    · simp [h]

lemma flipPhase_dealer_aces (a : App) :
    (a.flipPhase).dealer_hand.number_of_aces = a.dealer_hand.number_of_aces := by
  unfold App.flipPhase
  cases a.dealer_hand.contains with
  | nil => rfl
  | cons c rest =>
    by_cases h : c.value = CardValue.Hidden
    · simp [h]
    · simp [h]

lemma flipPhase_noop (a : App) (h : ¬ a.holeVal = some CardValue.Hidden) :
    a.flipPhase = a := by
  unfold App.flipPhase
  cases hc : a.dealer_hand.contains with
  | nil => rfl
  | cons c rest =>
    have hne : ¬ c.value = CardValue.Hidden := by
      intro he
      exact h (by simp [App.holeVal, hc, he])
    simp [hne]

lemma flipPhase_value_consistent (a : App) (h : a.holeVal = some CardValue.Hidden) :
    (a.flipPhase).dealer_hand.value = sumValues (a.flipPhase).dealer_hand.contains := by
  unfold App.flipPhase
  cases hc : a.dealer_hand.contains with
  | nil => simp [App.holeVal, hc] at h
  | cons c rest =>
    have he : c.value = CardValue.Hidden := by
      simp [App.holeVal, hc] at h
      exact h
    simp [he]

lemma dealerSteps_players (n : Nat) :
    ∀ a : App, (dealerSteps n a).players = a.players := by
  induction n with
  | zero => intro a; rw [dealerSteps_zero]
  | succ m ih =>
    intro a
    rw [dealerSteps_succ]
    by_cases hg : (a.dealer_hand.get_real_value).1 < 17
    · rw [if_pos hg]; exact ih _
    · rw [if_neg hg]

lemma dealerSteps_active (n : Nat) :
    ∀ a : App, (dealerSteps n a).active_hand_index = a.active_hand_index := by
  induction n with
  | zero => intro a; rw [dealerSteps_zero]
  | succ m ih =>
    intro a
    rw [dealerSteps_succ]
    by_cases hg : (a.dealer_hand.get_real_value).1 < 17
    · rw [if_pos hg]; exact ih _
    · rw [if_neg hg]

lemma dealerSteps_dealer_outcome (n : Nat) :
    ∀ a : App, (dealerSteps n a).dealer_hand.outcome = a.dealer_hand.outcome := by
  induction n with
  | zero => intro a; rw [dealerSteps_zero]
  | succ m ih =>
    intro a
    rw [dealerSteps_succ]
    by_cases hg : (a.dealer_hand.get_real_value).1 < 17
    · rw [if_pos hg]; exact ih _
    · rw [if_neg hg]

lemma endRound_active (a : App) :
    (a.endRound).active_hand_index = a.active_hand_index := by
  unfold App.endRound
  show (a.flipPhase.dealerPhase).active_hand_index = a.active_hand_index
  rw [show a.flipPhase.dealerPhase = dealerSteps 40 a.flipPhase from rfl,
      dealerSteps_active, flipPhase_active]

lemma endRound_players (a : App) :
    (a.endRound).players
      = a.players.map
          (settlePlayer (((a.flipPhase.dealerPhase).dealer_hand.get_real_value).1)) := by
  unfold App.endRound
  show (a.flipPhase.dealerPhase).players.map _ = _
  rw [show a.flipPhase.dealerPhase = dealerSteps 40 a.flipPhase from rfl,
      dealerSteps_players, flipPhase_players]

/-! ## Settlement lemmas -/

lemma settleHand_eq_resolveClaim (d : Nat) (bank : ℚ) (h : Hand) :
    settleHand d bank h = resolveClaim d bank h := by
  unfold settleHand resolveClaim
  by_cases h1 : 21 < (h.get_real_value).1
  · simp [h1]
  by_cases h2 : 21 < d
  · simp [h1, h2, mul_comm]
  by_cases h3 : (h.get_real_value).1 < d
  · simp [h1, h2, h3]
  by_cases h4 : d < (h.get_real_value).1
  · simp [h1, h2, h3, h4, mul_comm]
  have h5 : d = (h.get_real_value).1 := by omega
  simp [h1, h2, h3, h4, h5]

lemma settleHands_eq_claim (d : Nat) :
    ∀ (hs : List Hand) (b : ℚ), settleHands d b hs = claimSettleHands d b hs := by
  intro hs
  induction hs with
  | nil => intro b; rfl
  | cons h t ih =>
    intro b
    simp only [settleHands, claimSettleHands]
    rw [settleHand_eq_resolveClaim, ih]

lemma settlePlayer_eq_claim (d : Nat) (p : Player) :
    settlePlayer d p = claimSettlePlayer d p := by
  unfold settlePlayer claimSettlePlayer
  rw [settleHands_eq_claim]

lemma settleHands_length (d : Nat) :
    ∀ (hs : List Hand) (b : ℚ), (settleHands d b hs).1.length = hs.length := by
  intro hs
  induction hs with
  | nil => intro b; rfl
  | cons h t ih =>
    intro b
    unfold settleHands
    simp [ih]

lemma settlePlayer_hands_length (d : Nat) (p : Player) :
    (settlePlayer d p).hands.length = p.hands.length := by
  unfold settlePlayer
  exact settleHands_length d p.hands p.bank

lemma settleOutcome_ne_nf (d p : Nat) : settleOutcome d p ≠ Outcome.NotFinished := by
  unfold settleOutcome
  split_ifs <;> simp

lemma settleHand_isBJ (d : Nat) (b : ℚ) (h : Hand)
    (hb : h.outcome.isBJ = false) : ((settleHand d b h).1).outcome.isBJ = false := by
  simp only [settleHand]
  split_ifs <;> first
    | exact hb
    | simp [Outcome.isBJ]

lemma hand_upd_self (h : Hand) (oc : Outcome)
    (hb : h.bet = 0) (ho : h.outcome = oc) :
    ({ h with outcome := oc, bet := 0 } : Hand) = h := by
  cases h with
  | mk cs na v bet o =>
    dsimp only at hb ho
    subst hb
    subst ho
    rfl

lemma settleHand_id (d : Nat) (b : ℚ) (h : Hand)
    (hb : h.bet = 0) (ho : h.outcome = settleOutcome d ((h.get_real_value).1)) :
    settleHand d b h = (h, b) := by
  simp only [settleHand]
  unfold settleOutcome at ho
  by_cases h1 : 21 < (h.get_real_value).1
  · rw [if_pos h1] at ho
    rw [if_pos h1, hand_upd_self h _ hb ho]
  · rw [if_neg h1] at ho
    rw [if_neg h1]
    by_cases h2 : 21 < d
    · rw [if_pos h2] at ho
      rw [if_pos h2, hand_upd_self h _ hb ho, hb]
      norm_num
    · rw [if_neg h2] at ho
      rw [if_neg h2]
      by_cases h3 : (h.get_real_value).1 < d
      · rw [if_pos h3] at ho
        rw [if_pos h3, hand_upd_self h _ hb ho]
      · rw [if_neg h3] at ho
        rw [if_neg h3]
        by_cases h4 : d < (h.get_real_value).1
        · rw [if_pos h4] at ho
          rw [if_pos h4, hand_upd_self h _ hb ho, hb]
          norm_num
        · rw [if_neg h4] at ho
          rw [if_neg h4]
          rw [if_pos (by omega : d = (h.get_real_value).1),
              hand_upd_self h _ hb ho, hb]
          norm_num

lemma settleHands_id (d : Nat) :
    ∀ (hs : List Hand) (b : ℚ),
      (∀ h ∈ hs, h.bet = 0 ∧ h.outcome = settleOutcome d ((h.get_real_value).1)) →
      settleHands d b hs = (hs, b) := by
  intro hs
  induction hs with
  | nil => intro b _; rfl
  | cons h t ih =>
    intro b hall
    have hh := hall h (by simp)
    simp only [settleHands]
    rw [settleHand_id d b h hh.1 hh.2]
    dsimp only
    rw [ih b (fun x hx => hall x (by simp [hx]))]

lemma settlePlayer_id (d : Nat) (p : Player)
    (hall : ∀ h ∈ p.hands, h.bet = 0 ∧ h.outcome = settleOutcome d ((h.get_real_value).1)) :
    settlePlayer d p = p := by
  unfold settlePlayer
  rw [settleHands_id d p.hands p.bank hall]

/-! ## Reset lemmas -/

lemma dealHands_length (r : Rng) :
    ∀ (hs : List Hand) (k : Nat), ((dealHands r k hs).1).length = hs.length := by
  intro hs
  induction hs with
  | nil => intro k; rfl
  | cons h t ih =>
    intro k
    simp only [dealHands, List.length_cons]
    rw [ih]

lemma dealHands_mem (r : Rng) :
    ∀ (hs : List Hand) (k : Nat) (h' : Hand), h' ∈ (dealHands r k hs).1 →
      ∃ h ∈ hs, ∃ j, h' = h.add_card (r.drawAt j) := by
  intro hs
  induction hs with
  | nil => intro k h' hm; simp [dealHands] at hm
  | cons h t ih =>
    intro k h' hm
    simp only [dealHands] at hm
    rcases List.mem_cons.mp hm with h1 | h1
    · exact ⟨h, by simp, k, h1⟩
    · rcases ih (k + 1) h' h1 with ⟨h0, hh0, j, hj⟩
      exact ⟨h0, by simp [hh0], j, hj⟩

lemma dealHands_two (r : Rng) (k : Nat) (h1 h2 : Hand) :
    (dealHands r k [h1, h2]).1
      = [h1.add_card (r.drawAt k), h2.add_card (r.drawAt (k + 1))] := rfl

lemma dealPlayers_length (r : Rng) :
    ∀ (ps : List Player) (k : Nat), ((dealPlayers r k ps).1).length = ps.length := by
  intro ps
  induction ps with
  | nil => intro k; rfl
  | cons p t ih =>
    intro k
    simp only [dealPlayers, List.length_cons]
    rw [ih]

lemma dealPlayers_mem (r : Rng) :
    ∀ (ps : List Player) (k : Nat) (p' : Player), p' ∈ (dealPlayers r k ps).1 →
      ∃ p ∈ ps, ∃ k0, p'.hands = (dealHands r k0 p.hands).1
        ∧ p'.name = p.name ∧ p'.bank = p.bank := by
  intro ps
  induction ps with
  | nil => intro k p' hm; simp [dealPlayers] at hm
  | cons p t ih =>
    intro k p' hm
    simp only [dealPlayers] at hm
    rcases List.mem_cons.mp hm with h1 | h1
    · exact ⟨p, by simp, k, by rw [h1], by rw [h1], by rw [h1]⟩
    · rcases ih _ p' h1 with ⟨p0, hp0, k0, hk0⟩
      exact ⟨p0, by simp [hp0], k0, hk0⟩

lemma dealPlayers_banks (r : Rng) :
    ∀ (ps : List Player) (k : Nat),
      ((dealPlayers r k ps).1).map Player.bank = ps.map Player.bank := by
  intro ps
  induction ps with
  | nil => intro k; rfl
  | cons p t ih =>
    intro k
    simp only [dealPlayers, List.map_cons]
    rw [ih]

lemma anteHands_two_new (b : ℚ) :
    anteHands [Hand.new, Hand.new] b = ([handNew5, handNew5], b - 5 - 5) := by
  simp only [anteHands, Hand.new, handNew5]
  norm_num

/-- A player hand as dealt by `reset`: the anted fresh hand plus two drawn
cards; all the structural facts the claims need about it. -/
lemma dealt_hand_props (x y : Card)
    (hx : x.value ≠ CardValue.Hidden) (hy : y.value ≠ CardValue.Hidden) :
    ((handNew5.add_card x).add_card y).contains.length = 2
    ∧ ((handNew5.add_card x).add_card y).bet = 5
    ∧ ((handNew5.add_card x).add_card y).outcome = Outcome.NotFinished
    ∧ ((handNew5.add_card x).add_card y).value
        = sumValues ((handNew5.add_card x).add_card y).contains
    ∧ ((handNew5.add_card x).add_card y).number_of_aces
        = countAces ((handNew5.add_card x).add_card y).contains
    ∧ ∀ c ∈ ((handNew5.add_card x).add_card y).contains,
        c.value ≠ CardValue.Hidden := by
  have hc : ((handNew5.add_card x).add_card y).contains = [x, y] := rfl
  refine ⟨by rw [hc]; rfl, rfl, rfl, rfl, rfl, ?_⟩
  rw [hc]
  intro c hcm
  rcases List.mem_cons.mp hcm with h1 | h1
  · rw [h1]; exact hx
  · rw [List.mem_singleton.mp h1]; exact hy

/-- Core structural description of `reset` (shared by several claims). -/
lemma reset_struct (a : App) :
    ((a.reset).players.length = a.players.length)
    ∧ ((a.reset).players.map Player.bank = a.players.map (fun p => p.bank - 10))
    ∧ (∀ p ∈ (a.reset).players, p.hands.length = 2
        ∧ ∀ h ∈ p.hands, h.contains.length = 2 ∧ h.bet = 5
            ∧ h.outcome = Outcome.NotFinished ∧ h.value = sumValues h.contains
            ∧ h.number_of_aces = countAces h.contains
            ∧ ∀ c ∈ h.contains, c.value ≠ CardValue.Hidden)
    ∧ (∃ c : Card, (a.reset).dealer_hand.contains = [Card.new_hidden, c]
        ∧ c.value ≠ CardValue.Hidden)
    ∧ (a.reset).dealer_hand.outcome = Outcome.NotFinished
    ∧ (a.reset).dealer_hand.bet = 0
    ∧ (a.reset).active_hand_index = (0, 0) := by
  have hps3 : ((a.players.map (fun p => { p with hands := ([] : List Hand) })).map
      (fun p => { p with hands := [Hand.new, Hand.new] })).map antePlayer
      = a.players.map (fun p =>
          { p with hands := [handNew5, handNew5], bank := p.bank - 5 - 5 }) := by
    rw [List.map_map, List.map_map]
    apply map_congr_mem
    intro p _
    show antePlayer { p with hands := [Hand.new, Hand.new] } = _
    unfold antePlayer
    rw [anteHands_two_new]
  have hpl : (a.reset).players
      = (dealPlayers a.rng
          (dealPlayers a.rng a.k
            (((a.players.map (fun p => { p with hands := ([] : List Hand) })).map
              (fun p => { p with hands := [Hand.new, Hand.new] })).map antePlayer)).2
          (dealPlayers a.rng a.k
            (((a.players.map (fun p => { p with hands := ([] : List Hand) })).map
              (fun p => { p with hands := [Hand.new, Hand.new] })).map antePlayer)).1).1 := rfl
  have hdl : (a.reset).dealer_hand
      = (Hand.new.add_hidden_card).add_card
          (a.rng.drawAt
            (dealPlayers a.rng
              (dealPlayers a.rng a.k
                (((a.players.map (fun p => { p with hands := ([] : List Hand) })).map
                  (fun p => { p with hands := [Hand.new, Hand.new] })).map antePlayer)).2
              (dealPlayers a.rng a.k
                (((a.players.map (fun p => { p with hands := ([] : List Hand) })).map
                  (fun p => { p with hands := [Hand.new, Hand.new] })).map antePlayer)).1).2) := rfl
  refine ⟨?_, ?_, ?_, ?_, by rw [hdl]; rfl, by rw [hdl]; rfl, rfl⟩
  · rw [hpl, dealPlayers_length, dealPlayers_length, hps3]
    simp
  · rw [hpl, dealPlayers_banks, dealPlayers_banks, hps3, List.map_map]
    apply map_congr_mem
    intro p _
    show p.bank - 5 - 5 = p.bank - 10
    ring
  · rw [hpl]
    intro p hp
    rcases dealPlayers_mem a.rng _ _ p hp with ⟨q, hq, k1, hk1, _, _⟩
    rcases dealPlayers_mem a.rng _ _ q hq with ⟨s, hs, k0, hk0, _, _⟩
    rw [hps3] at hs
    rcases List.mem_map.mp hs with ⟨s0, _, hseq⟩
    have hsh : s.hands = [handNew5, handNew5] := by rw [← hseq]
    rw [hsh, dealHands_two] at hk0
    rw [hk0, dealHands_two] at hk1
    constructor
    · rw [hk1]; rfl
    · rw [hk1]
      intro h hm
      rcases List.mem_cons.mp hm with h1 | h1
      · rw [h1]
        exact dealt_hand_props _ _ (drawAt_value_ne_hidden _ _) (drawAt_value_ne_hidden _ _)
      · rw [List.mem_singleton.mp h1]
        exact dealt_hand_props _ _ (drawAt_value_ne_hidden _ _) (drawAt_value_ne_hidden _ _)
  · rw [hdl]
    exact ⟨_, rfl, drawAt_value_ne_hidden _ _⟩


/-! ## hit / next_hand / stay shape lemmas -/

lemma hit_active (a : App) : (a.hit).active_hand_index = a.active_hand_index := by
  simp only [App.hit]
  split
  · rfl
  · split
    · rfl
    · rfl

lemma hit_players_cases (a : App) :
    (a.hit).players = a.players ∨ (a.hit).players = hitPlayers a := by
  simp only [App.hit]
  split
  · exact Or.inl rfl
  · split
    · exact Or.inr rfl
    · exact Or.inl rfl

lemma next_hand_players (b : App) : (b.next_hand).players = b.players := by
  simp only [App.next_hand]
  split_ifs <;> rfl

lemma next_hand_active (b : App) :
    (b.next_hand).active_hand_index
      = (if ((b.players[b.active_hand_index.1]?).map (fun p => p.hands.length)).getD 0 - 1
              > b.active_hand_index.2
         then (b.active_hand_index.1, b.active_hand_index.2 + 1)
         else if b.players.length - 1 > b.active_hand_index.1
         then (b.active_hand_index.1 + 1, b.active_hand_index.2)
         else (b.active_hand_index.1, b.active_hand_index.2)) := by
  simp only [App.next_hand]
  split_ifs <;> rfl

lemma stayPlayers_length (a : App) : (stayPlayers a).length = a.players.length := by
  unfold stayPlayers
  exact updateNth_length _ _ _

lemma stay_eq (a : App) :
    a.stay = (if allSettled (({ a with players := stayPlayers a } : App).next_hand).players
              then (({ a with players := stayPlayers a } : App).next_hand).endRound
              else ({ a with players := stayPlayers a } : App).next_hand) := rfl

lemma stay_active (a : App) :
    (a.stay).active_hand_index = nextIdxSpec a.players a.active_hand_index := by
  rw [stay_eq]
  set a1 : App := { a with players := stayPlayers a } with ha1
  have hact : (a1.next_hand).active_hand_index
      = nextIdxSpec a.players a.active_hand_index := by
    rw [next_hand_active]
    have e1 : a1.players[a1.active_hand_index.1]?
        = (a.players[a.active_hand_index.1]?).map
            (fun p => { p with hands := (updateNth p.hands a.active_hand_index.2 standUpd) }) := by
      show (stayPlayers a)[a.active_hand_index.1]? = _
      unfold stayPlayers
      exact getElem?_updateNth_eq a.players a.active_hand_index.1 _
    have e2 : (a1.players[a1.active_hand_index.1]?).map (fun p => p.hands.length)
        = (a.players[a.active_hand_index.1]?).map (fun p => p.hands.length) := by
      rw [e1]
      cases a.players[a.active_hand_index.1]? with
      | none => rfl
      | some p => simp [updateNth_length]
    have e3 : a1.players.length = a.players.length := stayPlayers_length a
    have e4 : a1.active_hand_index = a.active_hand_index := rfl
    rw [e2, e4, e3]
    simp only [nextIdxSpec]
    set hlen := ((a.players[a.active_hand_index.1]?).map (fun p => p.hands.length)).getD 0
      with hhlen
    by_cases hA : hlen - 1 > a.active_hand_index.2
    · rw [if_pos hA, if_pos (by omega : a.active_hand_index.2 + 1 < hlen)]
    · rw [if_neg hA, if_neg (by omega : ¬ a.active_hand_index.2 + 1 < hlen)]
      by_cases hB : a.players.length - 1 > a.active_hand_index.1
      · rw [if_pos hB, if_pos (by omega : a.active_hand_index.1 + 1 < a.players.length)]
      · rw [if_neg hB, if_neg (by omega : ¬ a.active_hand_index.1 + 1 < a.players.length)]
  by_cases hf : allSettled (a1.next_hand).players
  · rw [if_pos hf, endRound_active, hact]
  · rw [if_neg hf, hact]

lemma stay_players_shape (a : App) :
    ∃ d : Nat, (a.stay).players
      = (if allSettled (stayPlayers a)
         then (stayPlayers a).map (settlePlayer d)
         else stayPlayers a) := by
  rw [stay_eq]
  set a1 : App := { a with players := stayPlayers a } with ha1
  have hnp : (a1.next_hand).players = a1.players := next_hand_players a1
  have hps : a1.players = stayPlayers a := rfl
  refine ⟨(((a1.next_hand).flipPhase.dealerPhase).dealer_hand.get_real_value).1, ?_⟩
  by_cases hf : allSettled (a1.next_hand).players
  · rw [if_pos hf, endRound_players, hnp, hps]
    rw [hnp, hps] at hf
    rw [if_pos hf]
  · rw [if_neg hf, hnp, hps]
    rw [hnp, hps] at hf
    rw [if_neg hf]

lemma standUpd_isBJ (h : Hand) (hb : h.outcome.isBJ = false) :
    (standUpd h).outcome.isBJ = false := by
  unfold standUpd
  split
  · rfl
  · exact hb

lemma standUpd_hands_mem (p : Player) (h' : Hand)
    (hm : h' ∈ updateNth p.hands a (standUpd)) :
    h' ∈ p.hands ∨ ∃ h ∈ p.hands, h' = standUpd h := mem_updateNth hm

/-! ## Invariant machinery (reachable states) -/

lemma hit_dealer (a : App) : (a.hit).dealer_hand = a.dealer_hand := by
  simp only [App.hit]
  split
  · rfl
  · split
    · rfl
    · rfl

lemma next_hand_dealer (b : App) : (b.next_hand).dealer_hand = b.dealer_hand := by
  simp only [App.next_hand]
  split_ifs <;> rfl

lemma endRound_dealer_outcome (x : App) :
    (x.endRound).dealer_hand.outcome = x.dealer_hand.outcome := by
  show (x.flipPhase.dealerPhase).dealer_hand.outcome = x.dealer_hand.outcome
  rw [show x.flipPhase.dealerPhase = dealerSteps 40 x.flipPhase from rfl,
      dealerSteps_dealer_outcome, flipPhase_dealer_outcome]

lemma stay_dealer_outcome (a : App) :
    (a.stay).dealer_hand.outcome = a.dealer_hand.outcome := by
  rw [stay_eq]
  set a1 : App := { a with players := stayPlayers a } with ha1
  have hd1 : a1.dealer_hand = a.dealer_hand := rfl
  by_cases hf : allSettled (a1.next_hand).players
  · rw [if_pos hf, endRound_dealer_outcome, next_hand_dealer, hd1]
  · rw [if_neg hf, next_hand_dealer, hd1]

lemma stayPlayers_hands_two (a : App)
    (h2 : ∀ p ∈ a.players, p.hands.length = 2) :
    ∀ q ∈ stayPlayers a, q.hands.length = 2 := by
  intro q hq
  rcases mem_updateNth hq with hmem | ⟨p, hp, rfl⟩
  · exact h2 q hmem
  · show (updateNth p.hands a.active_hand_index.2 standUpd).length = 2
    rw [updateNth_length]
    exact h2 p hp

lemma nextIdxSpec_bounds (ps : List Player) (idx : Nat × Nat)
    (h2 : ∀ p ∈ ps, p.hands.length = 2)
    (hp : idx.1 < ps.length) (hh : idx.2 < 2) :
    (nextIdxSpec ps idx).1 < ps.length ∧ (nextIdxSpec ps idx).2 < 2 := by
  simp only [nextIdxSpec]
  have hps : ps[idx.1]? = some (ps[idx.1]) := List.getElem?_eq_getElem hp
  have hlen2 : (ps[idx.1]).hands.length = 2 := h2 _ (List.getElem_mem hp)
  have hget : ((ps[idx.1]?).map (fun p => p.hands.length)).getD 0 = 2 := by
    rw [hps]
    show (ps[idx.1]).hands.length = 2
    exact hlen2
  rw [hget]
  by_cases hA : idx.2 + 1 < 2
  · rw [if_pos hA]
    exact ⟨hp, by omega⟩
  · rw [if_neg hA]
    by_cases hB : idx.1 + 1 < ps.length
    · rw [if_pos hB]
      exact ⟨hB, hh⟩
    · rw [if_neg hB]
      exact ⟨hp, hh⟩

lemma inv_reset (a : App) (h0 : 0 < a.players.length) : (a.reset).Inv := by
  obtain ⟨h1, _, h3, _, _, _, h7⟩ := reset_struct a
  refine ⟨by rw [h1]; exact h0, fun p hp => (h3 p hp).1, ?_, ?_⟩
  · rw [h7, h1]
    exact h0
  · rw [h7]
    omega

lemma inv_hit (a : App) (hI : a.Inv) : (a.hit).Inv := by
  obtain ⟨h0, h2, hp, hh⟩ := hI
  have hpl : (a.hit).players.length = a.players.length
      ∧ ∀ q ∈ (a.hit).players, q.hands.length = 2 := by
    rcases hit_players_cases a with he | he
    · rw [he]
      exact ⟨rfl, h2⟩
    · rw [he]
      unfold hitPlayers
      refine ⟨updateNth_length _ _ _, ?_⟩
      intro q hq
      rcases mem_updateNth hq with hmem | ⟨p', hp', rfl⟩
      · exact h2 q hmem
      · show (updateNth p'.hands a.active_hand_index.2 _).length = 2
        rw [updateNth_length]
        exact h2 p' hp'
  refine ⟨by rw [hpl.1]; exact h0, hpl.2, ?_, ?_⟩
  · rw [hit_active, hpl.1]
    exact hp
  · rw [hit_active]
    exact hh

lemma inv_stay (a : App) (hI : a.Inv) : (a.stay).Inv := by
  obtain ⟨h0, h2, hp, hh⟩ := hI
  obtain ⟨d, he⟩ := stay_players_shape a
  have hs2 : ∀ q ∈ stayPlayers a, q.hands.length = 2 := stayPlayers_hands_two a h2
  have hpl : (a.stay).players.length = a.players.length
      ∧ ∀ q ∈ (a.stay).players, q.hands.length = 2 := by
    rw [he]
    by_cases hf : allSettled (stayPlayers a)
    · rw [if_pos hf]
      constructor
      · rw [List.length_map, stayPlayers_length]
      · intro q hq
        rcases List.mem_map.mp hq with ⟨q0, hq0, rfl⟩
        rw [settlePlayer_hands_length]
        exact hs2 q0 hq0
    · rw [if_neg hf]
      exact ⟨stayPlayers_length a, hs2⟩
  have hidx := stay_active a
  have hb := nextIdxSpec_bounds a.players a.active_hand_index h2 hp hh
  refine ⟨by rw [hpl.1]; exact h0, hpl.2, ?_, ?_⟩
  · rw [hidx, hpl.1]
    exact hb.1
  · rw [hidx]
    exact hb.2

lemma inv_step (c : Cmd) (a : App) (hI : a.Inv) : (stepCmd c a).Inv := by
  cases c with
  | reset => exact inv_reset a hI.1
  | hit => exact inv_hit a hI
  | stay => exact inv_stay a hI

lemma inv_run : ∀ (cs : List Cmd) (a : App), a.Inv → (runCmds a cs).Inv := by
  intro cs
  induction cs with
  | nil => intro a hI; exact hI
  | cons c t ih =>
    intro a hI
    exact ih (stepCmd c a) (inv_step c a hI)

lemma inv_valid (a : App) (hI : a.Inv) : a.validIdx := by
  obtain ⟨h0, h2, hp, hh⟩ := hI
  refine ⟨a.players[a.active_hand_index.1], List.getElem?_eq_getElem hp, ?_⟩
  rw [h2 _ (List.getElem_mem hp)]
  exact hh

/-! ## No-blackjack machinery -/

lemma noBJ_reset (a : App) : (a.reset).noBJ := by
  obtain ⟨_, _, h3, _, h5, _, _⟩ := reset_struct a
  constructor
  · intro p hp h hh
    rw [((h3 p hp).2 h hh).2.2.1]
    rfl
  · rw [h5]
    rfl

lemma noBJ_hit (a : App) (hn : a.noBJ) : (a.hit).noBJ := by
  constructor
  · rcases hit_players_cases a with he | he
    · rw [he]
      exact hn.1
    · rw [he]
      unfold hitPlayers
      intro q hq
      rcases mem_updateNth hq with hmem | ⟨p', hp', rfl⟩
      · exact hn.1 q hmem
      · intro h hh
        rcases mem_updateNth hh with hm2 | ⟨h0, hh0, rfl⟩
        · exact hn.1 p' hp' h hm2
        · rw [add_card_outcome]
          exact hn.1 p' hp' h0 hh0
  · rw [hit_dealer]
    exact hn.2

lemma settleHands_isBJ_all (d : Nat) :
    ∀ (hs : List Hand) (b : ℚ), (∀ h ∈ hs, h.outcome.isBJ = false) →
      ∀ h' ∈ (settleHands d b hs).1, h'.outcome.isBJ = false := by
  intro hs
  induction hs with
  | nil => intro b _ h' hm; simp [settleHands] at hm
  | cons h t ih =>
    intro b hall h' hm
    simp only [settleHands] at hm
    rcases List.mem_cons.mp hm with h1 | h1
    · rw [h1]
      exact settleHand_isBJ d b h (hall h (by simp))
    · exact ih _ (fun x hx => hall x (by simp [hx])) h' h1

lemma settlePlayer_isBJ (d : Nat) (p : Player)
    (hall : ∀ h ∈ p.hands, h.outcome.isBJ = false) :
    ∀ h' ∈ (settlePlayer d p).hands, h'.outcome.isBJ = false := by
  intro h' hm
  exact settleHands_isBJ_all d p.hands p.bank hall h' hm

lemma stayPlayers_isBJ (a : App)
    (hn : ∀ p ∈ a.players, ∀ h ∈ p.hands, h.outcome.isBJ = false) :
    ∀ q ∈ stayPlayers a, ∀ h ∈ q.hands, h.outcome.isBJ = false := by
  intro q hq
  rcases mem_updateNth hq with hmem | ⟨p, hp, rfl⟩
  · exact hn q hmem
  · intro h hh
    rcases mem_updateNth hh with hm2 | ⟨h0, hh0, rfl⟩
    · exact hn p hp h hm2
    · exact standUpd_isBJ h0 (hn p hp h0 hh0)

lemma noBJ_stay (a : App) (hn : a.noBJ) : (a.stay).noBJ := by
  constructor
  · obtain ⟨d, he⟩ := stay_players_shape a
    rw [he]
    by_cases hf : allSettled (stayPlayers a)
    · rw [if_pos hf]
      intro q hq
      rcases List.mem_map.mp hq with ⟨q0, hq0, rfl⟩
      exact settlePlayer_isBJ d q0 (stayPlayers_isBJ a hn.1 q0 hq0)
    · rw [if_neg hf]
      exact stayPlayers_isBJ a hn.1
  · rw [stay_dealer_outcome]
    exact hn.2

lemma noBJ_step (c : Cmd) (a : App) (hn : a.noBJ) : (stepCmd c a).noBJ := by
  cases c with
  | reset => exact noBJ_reset a
  | hit => exact noBJ_hit a hn
  | stay => exact noBJ_stay a hn

/-! ## Claim theorems -/

/-- C1: for every hand built by drawing cards, `get_real_value` computes the
ace-reduction algorithm on the raw sum of card values and the ace count of
the card list, the hand is soft iff at least one ace is still counted as 11
after the reduction, and the three stated example hands evaluate to soft 17,
hard 17 and hard 18 respectively. -/
theorem real_value_ace_reduction :
    (∀ cs : List Card,
      ((handOfCards cs).get_real_value).1 = (reduceAces (sumValues cs) (countAces cs)).1
      ∧ (((handOfCards cs).get_real_value).2 = true
          ↔ 0 < (reduceAces (sumValues cs) (countAces cs)).2))
    ∧ (handOfCards [cardV CardValue.Ace, cardV CardValue.Six]).get_real_value = (17, true)
    ∧ (handOfCards [cardV CardValue.Ace, cardV CardValue.Six,
        cardV CardValue.Ten]).get_real_value = (17, false)
    ∧ (handOfCards [cardV CardValue.Ten, cardV CardValue.Seven,
        cardV CardValue.Ace]).get_real_value = (18, false) := by
  refine ⟨?_, by decide, by decide, by decide⟩
  intro cs
  obtain ⟨hc, hv, ha, _, _⟩ := handOfCards_spec cs
  constructor
  · simp only [Hand.get_real_value]
    rw [hv, ha]
  · simp only [Hand.get_real_value]
    rw [hv, ha]
    exact decide_eq_true_iff

/-- C2: end-of-round settlement applies the claimed five-case resolution
matrix, in order, to every hand of every player — `settleHand` coincides
with the matrix (`resolveClaim`), and `endRound` maps the matrix-based
settlement over all players against the dealer's post-draw real total,
zeroing each bet. -/
theorem settlement_matrix :
    (∀ (d : Nat) (bank : ℚ) (h : Hand), settleHand d bank h = resolveClaim d bank h)
    ∧ (∀ a : App, (a.endRound).players
        = a.players.map (claimSettlePlayer
            (((a.flipPhase.dealerPhase).dealer_hand.get_real_value).1))) := by
  refine ⟨settleHand_eq_resolveClaim, ?_⟩
  intro a
  rw [endRound_players]
  apply map_congr_mem
  intro p _
  exact settlePlayer_eq_claim _ p

/-- C4 counterexample: a dealer holding [Ace, Six] — soft 17 — draws no
card during the dealer phase (the claim requires it to draw one more). -/
theorem dealer_soft17_cex :
    (((dealerApp (handOfCards [cardV CardValue.Ace, cardV CardValue.Six])).dealerPhase).dealer_hand.contains.length = 2)
    ∧ ¬ 3 ≤ ((dealerApp (handOfCards [cardV CardValue.Ace,
        cardV CardValue.Six])).dealerPhase).dealer_hand.contains.length := by
  decide

/-- C4 amended: the dealer draws while its real value is below 17 — on any
total below 17, soft included (soft 16 [Ace, Five] draws) — and stops as
soon as the real value is at least 17, soft or hard: soft 17 [Ace, Six]
and hard 17 [Ten, Seven] both stop; after the phase the real value is
always at least 17. -/
theorem dealer_policy_amended :
    (∀ a : App, 17 ≤ ((a.dealerPhase).dealer_hand.get_real_value).1)
    ∧ (∀ a : App, (a.dealer_hand.get_real_value).1 < 17 →
        a.dealer_hand.contains.length + 1
          ≤ ((a.dealerPhase).dealer_hand.contains.length))
    ∧ (∀ a : App, 17 ≤ (a.dealer_hand.get_real_value).1 → a.dealerPhase = a)
    ∧ (((dealerApp (handOfCards [cardV CardValue.Ace,
        cardV CardValue.Five])).dealerPhase).dealer_hand.contains.length = 3)
    ∧ (((dealerApp (handOfCards [cardV CardValue.Ten,
        cardV CardValue.Seven])).dealerPhase).dealer_hand.contains.length = 2) :=
  ⟨dealerPhase_ge17, dealerPhase_draws, dealerPhase_noop, by decide, by decide⟩

/-- C4 witness: a dealer at 2 (below 17) draws; a dealer at hard 17 is a
fixed point of the dealer phase. -/
theorem dealer_policy_amended_witness :
    (((dealerApp (handOfCards [cardV CardValue.Two])).dealer_hand.get_real_value).1 < 17)
    ∧ ((dealerApp (handOfCards [cardV CardValue.Two])).dealer_hand.contains.length + 1
        ≤ (((dealerApp (handOfCards [cardV CardValue.Two])).dealerPhase).dealer_hand.contains.length))
    ∧ (17 ≤ ((dealerApp (handOfCards [cardV CardValue.Ten,
        cardV CardValue.Seven])).dealer_hand.get_real_value).1)
    ∧ ((dealerApp (handOfCards [cardV CardValue.Ten, cardV CardValue.Seven])).dealerPhase
        = dealerApp (handOfCards [cardV CardValue.Ten, cardV CardValue.Seven])) :=
  ⟨by decide, dealer_policy_amended.2.1 _ (by decide), by decide,
   dealer_policy_amended.2.2.1 _ (by decide)⟩

/-- C5 counterexample: after a full round on `rngC5` the dealer's hole card
was flipped to an Ace and the dealer drew no further card, so the cached
ace count (0) disagrees with the ace count recomputed from the cards (1). -/
theorem flip_stale_aces_cex :
    played5.dealer_hand.number_of_aces = 0
    ∧ countAces played5.dealer_hand.contains = 1 := by
  decide

/-- C5 amended: both caches are recomputed after any card is added; after a
hidden hole card is revealed only the cached total value is recomputed —
the cached ace count is left untouched by the flip (and may therefore
understate the aces among the cards until the next card is added). -/
theorem caches_amended :
    (∀ (h : Hand) (c : Card),
        (h.add_card c).value = sumValues (h.add_card c).contains
        ∧ (h.add_card c).number_of_aces = countAces (h.add_card c).contains)
    ∧ (∀ a : App, (a.flipPhase).dealer_hand.number_of_aces
        = a.dealer_hand.number_of_aces)
    ∧ (∀ a : App, a.holeVal = some CardValue.Hidden →
        (a.flipPhase).dealer_hand.value
          = sumValues (a.flipPhase).dealer_hand.contains) :=
  ⟨fun _ _ => ⟨rfl, rfl⟩, flipPhase_dealer_aces, flipPhase_value_consistent⟩

/-- C5 witness: right after a reset the hole card is hidden, and the flip
leaves the cached value consistent with the cards. -/
theorem caches_amended_witness :
    ((initApp rng0).reset.holeVal = some CardValue.Hidden)
    ∧ (((initApp rng0).reset.flipPhase).dealer_hand.value
        = sumValues ((initApp rng0).reset.flipPhase).dealer_hand.contains) :=
  ⟨by decide, caches_amended.2.2 _ (by decide)⟩

/-- C6 counterexample: after a reset each player hand holds two cards, not
one card as claimed. -/
theorem reset_one_card_cex :
    ((initApp rng0).reset.players.map (fun p => p.hands.map (fun h => h.contains.length)))
      = [[2, 2]]
    ∧ ¬ ((initApp rng0).reset.players.map (fun p => p.hands.map (fun h => h.contains.length)))
      = [[1, 1]] := by
  decide

/-- C6 amended: after any reset every player has exactly 2 hands, each with
exactly two cards dealt, bet 5 and outcome `NotFinished`; the dealer has
exactly one hidden and one visible card; each reset deducts the 5.0 ante
per hand (10 per player) from the owning player's bank; the index is (0,0). -/
theorem reset_structure_amended : ∀ a : App,
    ((a.reset).players.length = a.players.length)
    ∧ ((a.reset).players.map Player.bank = a.players.map (fun p => p.bank - 10))
    ∧ (∀ p ∈ (a.reset).players, p.hands.length = 2
        ∧ ∀ h ∈ p.hands, h.contains.length = 2 ∧ h.bet = 5
            ∧ h.outcome = Outcome.NotFinished)
    ∧ (∃ c : Card, (a.reset).dealer_hand.contains = [Card.new_hidden, c]
        ∧ c.value ≠ CardValue.Hidden)
    ∧ (a.reset).active_hand_index = (0, 0) := by
  intro a
  obtain ⟨h1, h2, h3, h4, _, _, h7⟩ := reset_struct a
  refine ⟨h1, h2, ?_, h4, h7⟩
  intro p hp
  refine ⟨(h3 p hp).1, ?_⟩
  intro h hh
  obtain ⟨hl, hb, ho, _, _, _⟩ := (h3 p hp).2 h hh
  exact ⟨hl, hb, ho⟩

/-- C6 witness: with one player, a reset yields one player with two hands. -/
theorem reset_structure_amended_witness :
    ((initApp rng0).reset.players.length = 1)
    ∧ (∀ p ∈ (initApp rng0).reset.players, p.hands.length = 2) := by
  have h := reset_structure_amended (initApp rng0)
  exact ⟨h.1.trans (by decide), fun p hp => ((h.2.2.1) p hp).1⟩

/-- C3 counterexample: with 2 players of 2 hands each, standing at active
index (0,1) moves the active index to (1,1) — the hand index is kept when
crossing to the next player — not to (1,0) as claimed. -/
theorem stand_next_player_cex :
    ((c3App.stay).active_hand_index = (1, 1))
    ∧ ¬ ((c3App.stay).active_hand_index = (1, 0))
    ∧ c3App.players.length = 2
    ∧ (∀ p ∈ c3App.players, p.hands.length = 2) := by
  decide

/-- C3 amended: the stand operation advances the active index as follows:
within the current player it moves to the next hand if one exists;
otherwise it increments the player index, keeping the current hand index,
if a next player exists; otherwise the index stays put.  With 2 players of
2 hands each, standing at (0,0) moves to (0,1), and standing at (0,1)
moves to (1,1). -/
theorem stand_advance_amended :
    (∀ a : App, (a.stay).active_hand_index = nextIdxSpec a.players a.active_hand_index)
    ∧ ((c3App00.stay).active_hand_index = (0, 1))
    ∧ ((c3App.stay).active_hand_index = (1, 1)) :=
  ⟨stay_active, by decide, by decide⟩

/-- C7: `hit` draws exactly one card into the active hand when that hand's
outcome is `NotFinished` and its real value is below 21 — leaving the
active index, the hand's bet and outcome, and every other hand unchanged —
and is a complete no-op otherwise. -/
theorem hit_frame : ∀ (a : App) (h : Hand),
    a.lookupHand a.active_hand_index.1 a.active_hand_index.2 = some h →
    ((¬ (h.outcome = Outcome.NotFinished ∧ (Hand.get_real_value h).1 < 21)) →
        a.hit = a)
    ∧ ((h.outcome = Outcome.NotFinished ∧ (Hand.get_real_value h).1 < 21) →
        (a.hit).active_hand_index = a.active_hand_index
        ∧ (a.hit).lookupHand a.active_hand_index.1 a.active_hand_index.2
            = some (h.add_card (a.rng.drawAt a.k))
        ∧ (h.add_card (a.rng.drawAt a.k)).bet = h.bet
        ∧ (h.add_card (a.rng.drawAt a.k)).outcome = h.outcome
        ∧ (h.add_card (a.rng.drawAt a.k)).contains = h.contains ++ [a.rng.drawAt a.k]
        ∧ ∀ pj hj, ¬ (pj = a.active_hand_index.1 ∧ hj = a.active_hand_index.2) →
            (a.hit).lookupHand pj hj = a.lookupHand pj hj) := by
  intro a h hl
  constructor
  · intro hnc
    simp only [App.hit, hl]
    rw [if_neg hnc]
  · intro hc
    have he : a.hit = { a with k := a.k + 1, players := hitPlayers a } := by
      simp only [App.hit, hl]
      rw [if_pos hc]
    rcases Option.bind_eq_some.mp hl with ⟨p, hp, hph⟩
    refine ⟨by rw [he], ?_, rfl, rfl, rfl, ?_⟩
    · rw [he]
      show ((hitPlayers a)[a.active_hand_index.1]?).bind
          (fun p => p.hands[a.active_hand_index.2]?) = _
      unfold hitPlayers
      rw [getElem?_updateNth_eq, hp]
      show (updateNth p.hands a.active_hand_index.2 _)[a.active_hand_index.2]? = _
      rw [getElem?_updateNth_eq, hph]
      rfl
    · intro pj hj hne
      rw [he]
      show ((hitPlayers a)[pj]?).bind (fun p => p.hands[hj]?)
          = (a.players[pj]?).bind (fun p => p.hands[hj]?)
      unfold hitPlayers
      by_cases hpj : pj = a.active_hand_index.1
      · subst hpj
        have hhj : hj ≠ a.active_hand_index.2 := fun hhj => hne ⟨rfl, hhj⟩
        rw [getElem?_updateNth_eq, hp]
        show (updateNth p.hands a.active_hand_index.2 _)[hj]? = p.hands[hj]?
        exact getElem?_updateNth_ne _ _ _ _ hhj
      · rw [getElem?_updateNth_ne _ _ _ _ hpj]

/-- C7 witness: on a concrete app whose active hand already stood, `hit`
changes nothing at all. -/
theorem hit_frame_witness :
    (hitWitnessApp.lookupHand 0 0 = some standHand0)
    ∧ ¬ (standHand0.outcome = Outcome.NotFinished
          ∧ (Hand.get_real_value standHand0).1 < 21)
    ∧ hitWitnessApp.hit = hitWitnessApp := by
  have hl : hitWitnessApp.lookupHand hitWitnessApp.active_hand_index.1
      hitWitnessApp.active_hand_index.2 = some standHand0 := by decide
  exact ⟨hl, by decide, (hit_frame hitWitnessApp standHand0 hl).1 (by decide)⟩

/-- C8 counterexample: a completed round (every outcome settled) leaves the
active index at (0,1) — the last hand, a valid in-range position — not
one-past-the-last-hand (hand index 2) as claimed. -/
theorem complete_round_index_cex :
    allSettled played0.players = true
    ∧ played0.active_hand_index = (0, 1)
    ∧ played0.players.map (fun p => p.hands.length) = [2]
    ∧ ¬ played0.active_hand_index.2 = 2 := by
  decide

/-- C8 amended: in every state reachable from a reset of a state with at
least one player, the active index is a valid index into
`players[player_index].hands` — both while the round is in progress and
once it is complete (the index then rests on the last hand). -/
theorem active_index_always_valid :
    ∀ (a : App) (cs : List Cmd), 0 < a.players.length →
      (runCmds (a.reset) cs).validIdx := by
  intro a cs h0
  exact inv_valid _ (inv_run cs _ (inv_reset a h0))

/-- C8 witness: the invariant applied to the one-player app after a reset
and a hit. -/
theorem active_index_always_valid_witness :
    (0 < (initApp rng0).players.length)
    ∧ (runCmds ((initApp rng0).reset) [Cmd.hit]).validIdx :=
  ⟨by decide, active_index_always_valid (initApp rng0) [Cmd.hit] (by decide)⟩

/-- C9: through any sequence of reset, hit and stand commands, no hand of
any player and no dealer hand ever carries a `DealerBlackjack` or
`PlayerBlackjack` outcome: the settlement algorithm never produces these
variants and no natural-blackjack detection happens at deal time. -/
theorem no_blackjack_outcomes :
    ∀ (cs : List Cmd) (a : App), a.noBJ → (runCmds a cs).noBJ := by
  intro cs
  induction cs with
  | nil => intro a hn; exact hn
  | cons c t ih =>
    intro a hn
    exact ih (stepCmd c a) (noBJ_step c a hn)

/-- C9 witness: the initial app has no blackjack outcome, and neither does
the state after a full played round. -/
theorem no_blackjack_outcomes_witness :
    (initApp rng0).noBJ
    ∧ (runCmds (initApp rng0) [Cmd.reset, Cmd.hit, Cmd.stay, Cmd.stay]).noBJ :=
  ⟨by unfold App.noBJ; decide,
   no_blackjack_outcomes [Cmd.reset, Cmd.hit, Cmd.stay, Cmd.stay]
    (initApp rng0) (by unfold App.noBJ; decide)⟩

/-- C10: once a round is complete — every hand's outcome is the settled
matrix outcome for the current totals with its bet zeroed, the dealer's
real value is at least 17, the hole card is no longer hidden, and the
active index rests on the last hand — a further stand command is the
identity on the whole state, even though it re-runs settlement. -/
theorem stand_after_settlement_noop :
    ∀ a : App,
      (∀ p ∈ a.players, ∀ h ∈ p.hands,
        h.bet = 0
        ∧ h.outcome = settleOutcome ((a.dealer_hand.get_real_value).1)
            ((h.get_real_value).1)) →
      17 ≤ (a.dealer_hand.get_real_value).1 →
      ¬ a.holeVal = some CardValue.Hidden →
      ¬ (((a.players[a.active_hand_index.1]?).map (fun p => p.hands.length)).getD 0 - 1
            > a.active_hand_index.2) →
      ¬ (a.players.length - 1 > a.active_hand_index.1) →
      a.stay = a := by
  intro a h1 h2 h3 h4 h5
  have hsp : stayPlayers a = a.players := by
    unfold stayPlayers
    apply updateNth_id
    intro p hp
    have hup : updateNth p.hands a.active_hand_index.2 standUpd = p.hands := by
      apply updateNth_id
      intro h hh
      unfold standUpd
      rw [if_neg]
      rw [(h1 p hp h hh).2]
      exact settleOutcome_ne_nf _ _
    rw [hup]
  have ha1 : ({ a with players := stayPlayers a } : App) = a := by
    rw [hsp]
  rw [stay_eq, ha1]
  have hnh : a.next_hand = a := by
    simp only [App.next_hand]
    rw [if_neg h4, if_neg h5]
  rw [hnh]
  have hset : allSettled a.players = true := by
    unfold allSettled
    rw [List.all_eq_true]
    intro p hp
    rw [List.all_eq_true]
    intro h hh
    rw [decide_eq_true_iff]
    rw [(h1 p hp h hh).2]
    exact settleOutcome_ne_nf _ _
  rw [if_pos hset]
  simp only [App.endRound]
  have hfp : a.flipPhase.dealerPhase = a := by
    rw [flipPhase_noop a h3, dealerPhase_noop a h2]
  have hmap : a.players.map (settlePlayer ((a.dealer_hand.get_real_value).1))
      = a.players := by
    apply map_id_mem
    intro p hp
    exact settlePlayer_id _ p (h1 p hp)
  rw [hfp, hmap]

/-- C10 witness: the concrete completed round is a fixed point of a further
stand. -/
theorem stand_after_settlement_noop_witness :
    (∀ p ∈ played0.players, ∀ h ∈ p.hands,
      h.bet = 0
      ∧ h.outcome = settleOutcome ((played0.dealer_hand.get_real_value).1)
          ((h.get_real_value).1))
    ∧ (17 ≤ (played0.dealer_hand.get_real_value).1)
    ∧ played0.stay = played0 := by
  refine ⟨by decide, by decide, ?_⟩
  exact stand_after_settlement_noop played0 (by decide) (by decide) (by decide)
    (by decide) (by decide)
